import Mathlib

/-!
# Verification of the search automation core

Shallow embedding of the repository's core module (search-string generation,
session acquisition, work partitioning, pacing) together with proofs of the
specified properties.

JavaScript objects keyed by strings are modelled as association lists
`List (String × β)` in insertion order; assignment `obj[k] = v` replaces the
value in place when the key is present and appends a new binding otherwise
(`objUpsert`), and property lookup is `objGet`.  A JavaScript value that may
be `undefined` is modelled as an `Option`.

The repository's `types.ts` and `constants.ts` are not part of the sources;
the interface shapes below are modelled from their use in the code and from
the spec's data model (`searchOptions` is an opaque pass-through blob,
modelled as `String`).
-/

/-- Opaque pass-through search configuration (`ISearchOptions` in `types.ts`,
not in the sources; the spec treats it as an opaque blob). -/
abbrev ISearchOptions := String

/-- An account record: platform type, username, password. -/
structure IUserCredentials where
  type : String
  username : String
  password : String
deriving DecidableEq, Repr

/-- A raw investigation record: a company, its products, incident keywords and
pass-through search options. -/
structure ISearchRawData where
  companyName : String
  productNames : List String
  incidentKeywords : List String
  searchOptions : ISearchOptions
deriving DecidableEq, Repr

/-- Value stored by variant A (`generateSearchStringsBySearchRawData`). -/
structure ISearchStringsValue where
  companyName : String
  searchString : String
  searchOptions : ISearchOptions
deriving DecidableEq, Repr

/-- Value stored by variant B
(`generateSearchStringsCompanyOrProductsBySearchRawData`). -/
structure ICompanyOrProductsValue where
  companyName : String
  incidentKeywords : List String
  searchString : String
  searchOptions : ISearchOptions
deriving DecidableEq, Repr

/-- JavaScript object property write `obj[k] = v`: replace the binding in
place when the key is present, append a new binding otherwise.  (An object has
at most one binding per key, which the recursion preserves: every object in
this development is built from `[]` by `objUpsert`.) -/
def objUpsert : List (String × β) → String → β → List (String × β)
  | [], k, v => [(k, v)]
  | p :: m, k, v => if p.1 == k then (k, v) :: m else p :: objUpsert m k v

/-- JavaScript object property read `obj[k]` (`none` = `undefined`). -/
def objGet (m : List (String × β)) (k : String) : Option β :=
  (m.find? (fun p => p.1 == k)).map (fun p => p.2)

theorem objGet_nil (k : String) : objGet ([] : List (String × β)) k = none := rfl

theorem objGet_objUpsert (m : List (String × β)) (k k' : String) (v : β) :
    objGet (objUpsert m k v) k' = if k' = k then some v else objGet m k' := by
  induction m with
  | nil =>
    by_cases hk : k' = k
    · simp [objUpsert, objGet, hk]
    · have h1 : (k == k') = false := by simp [Ne.symm hk]
      simp [objUpsert, objGet, List.find?_cons, h1, hk]
  | cons p m ih =>
    simp only [objUpsert]
    by_cases hp : p.1 = k
    · rw [if_pos (by simp [hp])]
      by_cases hk : k' = k
      · simp [objGet, List.find?_cons, hk]
      · have h1 : (k == k') = false := by simp [Ne.symm hk]
        have h2 : (p.1 == k') = false := by simp [hp, Ne.symm hk]
        simp [objGet, List.find?_cons, h1, h2, hk]
    · rw [if_neg (by simp [hp])]
      by_cases hpk' : p.1 = k'
      · have hk : ¬ k' = k := by
          rw [← hpk']
          exact fun h => hp h
        have h1 : (p.1 == k') = true := by simp [hpk']
        simp [objGet, List.find?_cons, h1, hk]
      · have h1 : (p.1 == k') = false := by simp [hpk']
        simp only [objGet, List.find?_cons, h1] at ih ⊢
        simpa using ih

/-! ## Embedded source functions -/

/-- `getNameForStorageStateByUserCredential` from the source: deterministic
storage file name for a credential's persisted session state. -/
def getNameForStorageStateByUserCredential (userCredential : IUserCredentials) : String :=
  "storageStateFor[" ++ userCredential.type ++ "][" ++ userCredential.username ++ "].json"

/-- `getKeyByUserCredential` from the source: identity key
`type + "-" + username`. -/
def getKeyByUserCredential (userCredential : IUserCredentials) : String :=
  userCredential.type ++ "-" ++ userCredential.username

/-- The session handle returned by `getBrowserContextWithLoggedInStoregeState`,
abstracting the external browser engine: a context seeded from persisted
state, the initially fresh context after a platform login ran on it, or the
bare fresh context. -/
inductive BrowserContextModel where
  | seeded (storageState : String)
  | loggedIn (platform : String)
  | bare
deriving DecidableEq, Repr

/-- Result of one session setup: the returned context and the write to
storage performed, if any (file name and contents). -/
structure SessionSetupResult where
  context : BrowserContextModel
  persisted : Option (String × String)
deriving DecidableEq, Repr

/-- `getBrowserContextWithLoggedInStoregeState` from the source.  The file
read is abstracted as `readStorageState` (`none` = the read threw, caught and
logged), and the two external platform login routines as functions returning
the serialized storage state.  Mirrors the source branch for branch: a
non-empty persisted state short-circuits into a seeded context with no write;
otherwise a matching platform login runs and its result is persisted; an
unknown platform type returns the bare context with no write. -/
def getBrowserContextWithLoggedInStoregeState
    (facebookLogin instagramLogin : IUserCredentials → String)
    (userCredential : IUserCredentials)
    (readStorageState : Option String) : SessionSetupResult :=
  let storageState := readStorageState.getD ""
  if storageState.length > 0 then
    { context := .seeded storageState, persisted := none }
  else if userCredential.type == "facebook" then
    { context := .loggedIn "facebook",
      persisted := some (getNameForStorageStateByUserCredential userCredential,
        facebookLogin userCredential) }
  else if userCredential.type == "instagram" then
    { context := .loggedIn "instagram",
      persisted := some (getNameForStorageStateByUserCredential userCredential,
        instagramLogin userCredential) }
  else
    { context := .bare, persisted := none }

/-- `getBrowserContextsByUserCredentialsKey` from the source.  `setup`
abstracts the per-credential session setup (`Promise.all` preserves order, so
the i-th context is `setup` of the i-th credential); the `reduce` then keys
each context by the credential's identity key, later credentials
overwriting earlier ones on key collisions.  Out-of-range indexing yields
`undefined`, hence the `Option γ` values. -/
def getBrowserContextsByUserCredentialsKey (setup : IUserCredentials → γ)
    (userCredentials : List IUserCredentials) : List (String × Option γ) :=
  let browserContexts := userCredentials.map setup
  userCredentials.enum.foldl
    (fun memo p => objUpsert memo (getKeyByUserCredential p.2) (browserContexts.get? p.1))
    []

/-- The first-level search words of variant A: the products each prefixed by
the company name, or the bare company name when there are no products. -/
def firstSearchWordsA (item : ISearchRawData) : List String :=
  if item.productNames.isEmpty then
    [item.companyName]
  else
    item.productNames.map (fun productName => item.companyName ++ " " ++ productName)

/-- `generateSearchStringsBySearchRawData` from the source (variant A, "by
incident"): for each record, cross the first-level words with the incident
keywords and key each descriptor by the full query string. -/
def generateSearchStringsBySearchRawData (searchRawData : List ISearchRawData) :
    List (String × ISearchStringsValue) :=
  searchRawData.foldl
    (fun memo item =>
      (firstSearchWordsA item).foldl
        (fun memo partOfSearch =>
          item.incidentKeywords.foldl
            (fun memo incidentKeyword =>
              objUpsert memo (partOfSearch ++ " " ++ incidentKeyword)
                { companyName := item.companyName,
                  searchString := partOfSearch ++ " " ++ incidentKeyword,
                  searchOptions := item.searchOptions })
            memo)
        memo)
    []

/-- The first-level search words of variant B: the company name, followed by
the product names when there are any. -/
def firstSearchWordsB (item : ISearchRawData) : List String :=
  if item.productNames.isEmpty then
    [item.companyName]
  else
    [item.companyName] ++ item.productNames

/-- `generateSearchStringsCompanyOrProductsBySearchRawData` from the source
(variant B, "by company/product"): each first-level word is itself the key and
the search string; the incident keywords are carried in the descriptor. -/
def generateSearchStringsCompanyOrProductsBySearchRawData
    (searchRawData : List ISearchRawData) : List (String × ICompanyOrProductsValue) :=
  searchRawData.foldl
    (fun memo item =>
      (firstSearchWordsB item).foldl
        (fun memo searchString =>
          objUpsert memo searchString
            { companyName := item.companyName,
              incidentKeywords := item.incidentKeywords,
              searchString := searchString,
              searchOptions := item.searchOptions })
        memo)
    []

/-- JavaScript `String.prototype.includes`: `strIncludes s pat` is true when
`pat` occurs contiguously anywhere in `s`. -/
def strIncludes (s pat : String) : Bool :=
  go pat.data s.data
where
  /-- Check occurrence of `needle` at any position of `hay`. -/
  go (needle : List Char) : List Char → Bool
    | [] => needle.isEmpty
    | c :: rest => needle.isPrefixOf (c :: rest) || go needle rest

/-- `getTypeForBrowserContextByUserCredentialsKey` from the source: classify a
credential key by substring containment, `facebook` first. -/
def getTypeForBrowserContextByUserCredentialsKey (key : String) : Option String :=
  if strIncludes key "facebook-" then
    some "facebook"
  else if strIncludes key "instagram-" then
    some "instagram"
  else
    none

/-- `Math.ceil(a / b)` on natural counts (the source divides two array
lengths as floats and takes the ceiling). -/
def jsCeilDiv (a b : Nat) : Nat :=
  (a + b - 1) / b

/-- lodash `chunk`: split a list into contiguous pieces of `n` elements, the
last piece possibly shorter; `chunk` with size `0` yields `[]`.  Written in
closed form (the i-th chunk is the `n` elements from position `n * i`), which
is the loop of the library implementation. -/
def chunkList (n : Nat) (l : List α) : List (List α) :=
  (List.range (jsCeilDiv l.length n)).map (fun i => (l.drop (n * i)).take n)

/-- One step of lodash `groupBy(·, 'type')`: append the credential to its
type's group if one exists, else start a new group at the end. -/
def gStep (acc : List (String × List IUserCredentials)) (c : IUserCredentials) :
    List (String × List IUserCredentials) :=
  if acc.any (fun p => p.1 == c.type) then
    acc.map (fun p => if p.1 == c.type then (p.1, p.2 ++ [c]) else p)
  else
    acc ++ [(c.type, [c])]

/-- lodash `groupBy(·, 'type')`: group the credentials by platform type, group
keys in first-occurrence order, each group preserving the input's relative
order. -/
def groupByType (userCredentials : List IUserCredentials) :
    List (String × List IUserCredentials) :=
  userCredentials.foldl gStep []

/-- The chunk list the source builds for one platform group: the whole key
list as a single chunk when the group has at least as many credentials as
there are keys, else contiguous chunks of `ceil(totalSize / sizeOfParts)`. -/
def searchStringsByChanks (sizeOfParts : Nat) (searchStringsKeys : List String) :
    List (List String) :=
  if sizeOfParts ≥ searchStringsKeys.length then
    [searchStringsKeys]
  else
    chunkList (jsCeilDiv searchStringsKeys.length sizeOfParts) searchStringsKeys

/-- `getSearchStringsByBrowserContexts` from the source: group the credentials
by platform type; for each group build its chunk list and assign to the i-th
credential of the group the i-th chunk (`undefined`, i.e. `none`, when the
chunk list is shorter than the group). -/
def getSearchStringsByBrowserContexts (userCredentials : List IUserCredentials)
    (searchStrings : List (String × β)) : List (String × Option (List String)) :=
  let groupedUserCredentialsByType := groupByType userCredentials
  let searchStringsKeys := searchStrings.map Prod.fst
  groupedUserCredentialsByType.foldl
    (fun memo grp =>
      let userCredentialsByType := grp.2
      let chanks := searchStringsByChanks userCredentialsByType.length searchStringsKeys
      userCredentialsByType.enum.foldl
        (fun memo p => objUpsert memo (getKeyByUserCredential p.2) (chanks.get? p.1))
        memo)
    []

/-- `getRandomDelayTimeInSecound` from the source: `Math.floor(r * max)` for a
random draw `r` in `[0, 1)`.  The draw is made explicit; the default bound is
the configured process-wide constant (not in the sources) and plays no role
here. -/
def getRandomDelayTimeInSecound (r : ℚ) (max : Nat) : Int :=
  ⌊r * (max : ℚ)⌋

/-! ## Lookup lemmas for object folds -/

theorem objGet_foldl_upsert (key : α → String) (val : α → β) (l : List α)
    (m : List (String × β)) (q : String) :
    objGet (l.foldl (fun memo a => objUpsert memo (key a) (val a)) m) q =
      match l.reverse.find? (fun a => key a == q) with
      | some a => some (val a)
      | none => objGet m q := by
  induction l generalizing m with
  | nil => simp
  | cons x l ih =>
    simp only [List.foldl_cons, List.reverse_cons, List.find?_append]
    rw [ih]
    cases hf : l.reverse.find? (fun a => key a == q) with
    | some y => simp
    | none =>
      by_cases hx : key x = q
      · have h1 : (key x == q) = true := by simp [hx]
        simp [List.find?_cons, h1, objGet_objUpsert, hx]
      · have h1 : (key x == q) = false := by simp [hx]
        simp [List.find?_cons, h1, objGet_objUpsert, Ne.symm hx]

theorem find?_reverse_last (l : List α) (p : α → Bool) (j : Nat) (x : α)
    (hj : l[j]? = some x) (hx : p x = true)
    (hlast : ∀ i y, j < i → l[i]? = some y → p y = false) :
    l.reverse.find? p = some x := by
  induction l generalizing j with
  | nil => simp at hj
  | cons a l ih =>
    simp only [List.reverse_cons, List.find?_append]
    cases j with
    | zero =>
      simp only [List.getElem?_cons_zero, Option.some_inj] at hj
      subst hj
      have hnone : l.reverse.find? p = none := by
        rw [List.find?_eq_none]
        intro y hy
        rcases List.mem_iff_getElem?.mp (List.mem_reverse.mp hy) with ⟨i, hi⟩
        have : p y = false := hlast (i + 1) y (Nat.succ_pos i) (by simpa using hi)
        simp [this]
      simp [hnone, List.find?_cons, hx]
    | succ j =>
      simp only [List.getElem?_cons_succ] at hj
      have := ih j hj (fun i y hji hiy => hlast (i + 1) y (Nat.succ_lt_succ hji) (by simpa using hiy))
      simp [this]

theorem objGet_foldl_last (key : α → String) (val : α → β) (l : List α) (j : Nat) (x : α)
    (hj : l[j]? = some x)
    (hlast : ∀ i y, j < i → l[i]? = some y → key y ≠ key x) :
    objGet (l.foldl (fun memo a => objUpsert memo (key a) (val a)) []) (key x) = some (val x) := by
  rw [objGet_foldl_upsert]
  rw [find?_reverse_last l _ j x hj (by simp) (fun i y hji hiy => by
    simpa using hlast i y hji hiy)]

theorem objGet_foldl_uniq (key : α → String) (val : α → β) (l : List α) (K : String) (v : β)
    (hex : ∃ a, a ∈ l ∧ key a = K)
    (huniq : ∀ a, a ∈ l → key a = K → val a = v) :
    objGet (l.foldl (fun memo a => objUpsert memo (key a) (val a)) []) K = some v := by
  rw [objGet_foldl_upsert]
  have hsome : (l.reverse.find? (fun a => key a == K)).isSome := by
    rw [List.find?_isSome]
    rcases hex with ⟨a, ha, hk⟩
    exact ⟨a, List.mem_reverse.mpr ha, by simp [hk]⟩
  rcases Option.isSome_iff_exists.mp hsome with ⟨a, ha⟩
  have hmem : a ∈ l := List.mem_reverse.mp (List.mem_of_find?_eq_some ha)
  have hkey : key a = K := by simpa using List.find?_some ha
  rw [ha]
  simp [huniq a hmem hkey]

theorem objGet_foldl_keyed (f : α → String) (g : String → β) (l : List α)
    (m : List (String × β)) (q : String) :
    objGet (l.foldl (fun memo a => objUpsert memo (f a) (g (f a))) m) q =
      if l.any (fun a => f a == q) then some (g q) else objGet m q := by
  induction l generalizing m with
  | nil => simp
  | cons x l ih =>
    simp only [List.foldl_cons, List.any_cons]
    rw [ih]
    by_cases hl : l.any (fun a => f a == q)
    · simp [hl]
    · rw [if_neg hl, objGet_objUpsert]
      by_cases hx : f x = q
      · simp [hx]
      · have h1 : (f x == q) = false := by simp [hx]
        simp only [h1, Bool.false_or]
        rw [if_neg (fun h => hx h.symm), if_neg hl]

theorem objGet_foldl2_keyed (f : α → γ → String) (g : String → β)
    (outer : List α) (inner : List γ) (m : List (String × β)) (q : String) :
    objGet (outer.foldl
        (fun memo a => inner.foldl (fun memo b => objUpsert memo (f a b) (g (f a b))) memo) m) q =
      if outer.any (fun a => inner.any (fun b => f a b == q)) then some (g q)
      else objGet m q := by
  induction outer generalizing m with
  | nil => simp
  | cons x l ih =>
    simp only [List.foldl_cons, List.any_cons]
    rw [ih]
    by_cases hl : l.any (fun a => inner.any (fun b => f a b == q))
    · simp [hl]
    · rw [if_neg hl, objGet_foldl_keyed]
      by_cases hx : inner.any (fun b => f x b == q)
      · simp [hx]
      · have h1 : inner.any (fun b => f x b == q) = false := by simpa using hx
        simp only [h1, Bool.false_or]
        rw [if_neg Bool.false_ne_true, if_neg hl]

/-! ## Characterization of the generators on a single record -/

theorem genA_singleton (r : ISearchRawData) (q : String) :
    objGet (generateSearchStringsBySearchRawData [r]) q =
      if (firstSearchWordsA r).any
          (fun pos => r.incidentKeywords.any (fun kw => (pos ++ " " ++ kw) == q)) then
        some { companyName := r.companyName, searchString := q,
               searchOptions := r.searchOptions }
      else none := by
  have h := objGet_foldl2_keyed (fun pos kw => pos ++ " " ++ kw)
    (fun s => ({ companyName := r.companyName, searchString := s,
                 searchOptions := r.searchOptions } : ISearchStringsValue))
    (firstSearchWordsA r) r.incidentKeywords [] q
  simpa [generateSearchStringsBySearchRawData] using h

theorem genB_singleton (r : ISearchRawData) (q : String) :
    objGet (generateSearchStringsCompanyOrProductsBySearchRawData [r]) q =
      if (firstSearchWordsB r).any (fun w => w == q) then
        some { companyName := r.companyName, incidentKeywords := r.incidentKeywords,
               searchString := q, searchOptions := r.searchOptions }
      else none := by
  have h := objGet_foldl_keyed (fun w => w)
    (fun s => ({ companyName := r.companyName, incidentKeywords := r.incidentKeywords,
                 searchString := s, searchOptions := r.searchOptions } : ICompanyOrProductsValue))
    (firstSearchWordsB r) [] q
  simpa [generateSearchStringsCompanyOrProductsBySearchRawData] using h

theorem firstSearchWordsB_eq (r : ISearchRawData) :
    firstSearchWordsB r = r.companyName :: r.productNames := by
  cases h : r.productNames <;> simp [firstSearchWordsB, h]

/-! ## Invariant lemmas for object folds -/

theorem inv_objUpsert {P : String → β → Prop} (m : List (String × β)) (k : String) (v : β)
    (hm : ∀ q d, objGet m q = some d → P q d) (hv : P k v) :
    ∀ q d, objGet (objUpsert m k v) q = some d → P q d := by
  intro q d hd
  rw [objGet_objUpsert] at hd
  by_cases hq : q = k
  · rw [if_pos hq] at hd
    cases hd
    rw [hq]
    exact hv
  · rw [if_neg hq] at hd
    exact hm q d hd

theorem inv_foldl {P : String → β → Prop} :
    ∀ (l : List α) (step : List (String × β) → α → List (String × β)),
      (∀ m a, a ∈ l → (∀ q d, objGet m q = some d → P q d) →
        (∀ q d, objGet (step m a) q = some d → P q d)) →
      ∀ m, (∀ q d, objGet m q = some d → P q d) →
        (∀ q d, objGet (l.foldl step m) q = some d → P q d)
  | [], _, _, m, hm => by simpa using hm
  | x :: l, step, hstep, m, hm => by
    simp only [List.foldl_cons]
    exact inv_foldl l step (fun m a ha => hstep m a (List.mem_cons_of_mem _ ha)) (step m x)
      (hstep m x (List.mem_cons_self x l) hm)

/-! ## Claims about the search-string generators -/

/-- C3: for every InvestigationRecord whose productNames sequence is empty,
variant A's generator produces for that record exactly the query strings
`companyName ++ " " ++ k` for `k` among the incident keywords, each mapped to
a descriptor carrying that record's companyName and searchOptions. -/
theorem claim_C3_variantA_empty_products (r : ISearchRawData) (h : r.productNames = [])
    (q : String) (d : ISearchStringsValue) :
    objGet (generateSearchStringsBySearchRawData [r]) q = some d ↔
      (q ∈ r.incidentKeywords.map (fun k => r.companyName ++ " " ++ k) ∧
        d = { companyName := r.companyName, searchString := q,
              searchOptions := r.searchOptions }) := by
  rw [genA_singleton]
  have hfw : firstSearchWordsA r = [r.companyName] := by
    simp [firstSearchWordsA, h]
  rw [hfw]
  simp only [List.any_cons, List.any_nil, Bool.or_false]
  have hcond : (r.incidentKeywords.any (fun kw => (r.companyName ++ " " ++ kw) == q)) = true ↔
      q ∈ r.incidentKeywords.map (fun k => r.companyName ++ " " ++ k) := by
    rw [List.any_eq_true, List.mem_map]
    constructor
    · rintro ⟨kw, hkw, hq⟩
      exact ⟨kw, hkw, by simpa using hq⟩
    · rintro ⟨kw, hkw, hq⟩
      exact ⟨kw, hkw, by simp [hq]⟩
  by_cases hq : (r.incidentKeywords.any (fun kw => (r.companyName ++ " " ++ kw) == q)) = true
  · rw [if_pos hq]
    have hqmem := hcond.mp hq
    simp only [hqmem, true_and]
    constructor
    · intro hd
      exact (Option.some_inj.mp hd).symm
    · intro hd
      rw [hd]
  · rw [if_neg hq]
    have hnm : ¬ q ∈ r.incidentKeywords.map (fun k => r.companyName ++ " " ++ k) :=
      fun hm => hq (hcond.mpr hm)
    simp [hnm]

theorem claim_C3_witness :
    objGet (generateSearchStringsBySearchRawData [⟨"Acme", [], ["breach"], "o"⟩]) "Acme breach" =
      some ⟨"Acme", "Acme breach", "o"⟩ :=
  (claim_C3_variantA_empty_products ⟨"Acme", [], ["breach"], "o"⟩ rfl "Acme breach"
    ⟨"Acme", "Acme breach", "o"⟩).mpr ⟨by decide, rfl⟩

/-- C4: for every InvestigationRecord whose productNames sequence is
non-empty, variant A never uses the bare company name as a first-level word:
every query string produced from that record has the form
`companyName ++ " " ++ productName ++ " " ++ incidentKeyword`. -/
theorem claim_C4_variantA_products (r : ISearchRawData) (h : r.productNames ≠ [])
    (q : String) (d : ISearchStringsValue)
    (hd : objGet (generateSearchStringsBySearchRawData [r]) q = some d) :
    ∃ p, p ∈ r.productNames ∧ ∃ kw, kw ∈ r.incidentKeywords ∧
      q = r.companyName ++ " " ++ p ++ " " ++ kw ∧
      d = { companyName := r.companyName, searchString := q,
            searchOptions := r.searchOptions } := by
  rw [genA_singleton] at hd
  have hfw : firstSearchWordsA r =
      r.productNames.map (fun productName => r.companyName ++ " " ++ productName) := by
    simp [firstSearchWordsA, h]
  rw [hfw] at hd
  by_cases hq : ((r.productNames.map (fun productName => r.companyName ++ " " ++ productName)).any
      (fun pos => r.incidentKeywords.any (fun kw => (pos ++ " " ++ kw) == q))) = true
  · rw [if_pos hq] at hd
    rcases List.any_eq_true.mp hq with ⟨pos, hpos, hinner⟩
    rcases List.any_eq_true.mp hinner with ⟨kw, hkw, heq⟩
    rcases List.mem_map.mp hpos with ⟨p, hp, hpe⟩
    have hq' : pos ++ " " ++ kw = q := by simpa using heq
    refine ⟨p, hp, kw, hkw, ?_, (Option.some_inj.mp hd).symm⟩
    rw [← hq', ← hpe]
  · rw [if_neg hq] at hd
    simp at hd

theorem claim_C4_witness :
    ∃ p, p ∈ ["Widget"] ∧ ∃ kw, kw ∈ ["leak"] ∧
      "Acme Widget leak" = "Acme" ++ " " ++ p ++ " " ++ kw ∧
      (⟨"Acme", "Acme Widget leak", "o"⟩ : ISearchStringsValue) =
        { companyName := "Acme", searchString := "Acme Widget leak", searchOptions := "o" } :=
  claim_C4_variantA_products ⟨"Acme", ["Widget"], ["leak"], "o"⟩ (by decide)
    "Acme Widget leak" ⟨"Acme", "Acme Widget leak", "o"⟩ (by decide)

/-- C5: for every InvestigationRecord, variant B's generator always includes
the bare company name as a key (regardless of productNames), includes every
product name as a key, and each stored descriptor carries that record's
companyName, incidentKeywords, the key itself as searchString, and
searchOptions. -/
theorem claim_C5_variantB (r : ISearchRawData) :
    (∀ q d, objGet (generateSearchStringsCompanyOrProductsBySearchRawData [r]) q = some d ↔
        (q ∈ r.companyName :: r.productNames ∧
          d = { companyName := r.companyName, incidentKeywords := r.incidentKeywords,
                searchString := q, searchOptions := r.searchOptions })) ∧
    objGet (generateSearchStringsCompanyOrProductsBySearchRawData [r]) r.companyName =
      some { companyName := r.companyName, incidentKeywords := r.incidentKeywords,
             searchString := r.companyName, searchOptions := r.searchOptions } ∧
    ∀ p, p ∈ r.productNames →
      objGet (generateSearchStringsCompanyOrProductsBySearchRawData [r]) p =
        some { companyName := r.companyName, incidentKeywords := r.incidentKeywords,
               searchString := p, searchOptions := r.searchOptions } := by
  have main : ∀ q d,
      objGet (generateSearchStringsCompanyOrProductsBySearchRawData [r]) q = some d ↔
        (q ∈ r.companyName :: r.productNames ∧
          d = { companyName := r.companyName, incidentKeywords := r.incidentKeywords,
                searchString := q, searchOptions := r.searchOptions }) := by
    intro q d
    rw [genB_singleton, firstSearchWordsB_eq]
    have hcond : ((r.companyName :: r.productNames).any (fun w => w == q)) = true ↔
        q ∈ r.companyName :: r.productNames := by
      rw [List.any_eq_true]
      constructor
      · rintro ⟨w, hw, hwq⟩
        have hq : w = q := by simpa using hwq
        exact hq ▸ hw
      · intro hm
        exact ⟨q, hm, by simp⟩
    by_cases hq : ((r.companyName :: r.productNames).any (fun w => w == q)) = true
    · rw [if_pos hq]
      simp only [hcond.mp hq, true_and]
      constructor
      · intro hd
        exact (Option.some_inj.mp hd).symm
      · intro hd
        rw [hd]
    · rw [if_neg hq]
      have hnm : ¬ q ∈ r.companyName :: r.productNames := fun hm => hq (hcond.mpr hm)
      simp [hnm]
  refine ⟨main, ?_, ?_⟩
  · exact (main r.companyName _).mpr ⟨List.mem_cons_self _ _, rfl⟩
  · intro p hp
    exact (main p _).mpr ⟨List.mem_cons_of_mem _ hp, rfl⟩

theorem claim_C5_witness :
    objGet (generateSearchStringsCompanyOrProductsBySearchRawData
        [⟨"Acme", ["Widget"], ["breach"], "o"⟩]) "Widget" =
      some ⟨"Acme", ["breach"], "Widget", "o"⟩ :=
  (claim_C5_variantB ⟨"Acme", ["Widget"], ["breach"], "o"⟩).2.2 "Widget" (by decide)

/-- C9 (implicit): in the output of both generators, every entry is internally
consistent: the map key equals the descriptor's searchString field, and the
descriptor's remaining fields (companyName, searchOptions, and for variant B
incidentKeywords) are those of an investigation record of the input that
produced the entry. -/
theorem claim_C9_entry_consistency :
    (∀ (rs : List ISearchRawData) (q : String) (d : ISearchStringsValue),
        objGet (generateSearchStringsBySearchRawData rs) q = some d →
          d.searchString = q ∧
            ∃ r, r ∈ rs ∧ d.companyName = r.companyName ∧
              d.searchOptions = r.searchOptions) ∧
    (∀ (rs : List ISearchRawData) (q : String) (d : ICompanyOrProductsValue),
        objGet (generateSearchStringsCompanyOrProductsBySearchRawData rs) q = some d →
          d.searchString = q ∧
            ∃ r, r ∈ rs ∧ d.companyName = r.companyName ∧
              d.incidentKeywords = r.incidentKeywords ∧
              d.searchOptions = r.searchOptions) := by
  constructor
  · intro rs q d hd
    unfold generateSearchStringsBySearchRawData at hd
    refine inv_foldl
      (P := fun q d => d.searchString = q ∧
        ∃ r, r ∈ rs ∧ d.companyName = r.companyName ∧ d.searchOptions = r.searchOptions)
      rs _ ?_ [] ?_ q d hd
    · intro m item hitem hm
      refine inv_foldl (firstSearchWordsA item) _ ?_ m hm
      intro m' pos hpos hm'
      refine inv_foldl item.incidentKeywords _ ?_ m' hm'
      intro m'' kw hkw hm''
      exact inv_objUpsert m'' _ _ hm'' ⟨rfl, item, hitem, rfl, rfl⟩
    · intro q' d' hd'
      simp [objGet] at hd'
  · intro rs q d hd
    unfold generateSearchStringsCompanyOrProductsBySearchRawData at hd
    refine inv_foldl
      (P := fun q d => d.searchString = q ∧
        ∃ r, r ∈ rs ∧ d.companyName = r.companyName ∧ d.incidentKeywords = r.incidentKeywords ∧
          d.searchOptions = r.searchOptions)
      rs _ ?_ [] ?_ q d hd
    · intro m item hitem hm
      refine inv_foldl (firstSearchWordsB item) _ ?_ m hm
      intro m' w hw hm'
      exact inv_objUpsert m' _ _ hm' ⟨rfl, item, hitem, rfl, rfl, rfl⟩
    · intro q' d' hd'
      simp [objGet] at hd'

theorem claim_C9_witness :
    (⟨"Acme", "Acme breach", "o"⟩ : ISearchStringsValue).searchString = "Acme breach" ∧
      ∃ r, r ∈ [(⟨"Acme", [], ["breach"], "o"⟩ : ISearchRawData)] ∧
        (⟨"Acme", "Acme breach", "o"⟩ : ISearchStringsValue).companyName = r.companyName ∧
        (⟨"Acme", "Acme breach", "o"⟩ : ISearchStringsValue).searchOptions = r.searchOptions :=
  claim_C9_entry_consistency.1 [⟨"Acme", [], ["breach"], "o"⟩] "Acme breach"
    ⟨"Acme", "Acme breach", "o"⟩ (by decide)

/-! ## Claims about the session provider -/

/-- C6: when two credentials in the list produce the same identity key, the
keyed session mapping holds, for that key, the context produced from the
later credential in list order: the later one overwrites the earlier. -/
theorem claim_C6_later_credential_wins (setup : IUserCredentials → γ)
    (userCredentials : List IUserCredentials) (i j : Nat) (ci cj : IUserCredentials)
    (hij : i < j)
    (hi : userCredentials[i]? = some ci) (hj : userCredentials[j]? = some cj)
    (hkey : getKeyByUserCredential ci = getKeyByUserCredential cj)
    (hlast : ∀ l cl, j < l → userCredentials[l]? = some cl →
      getKeyByUserCredential cl ≠ getKeyByUserCredential cj) :
    objGet (getBrowserContextsByUserCredentialsKey setup userCredentials)
        (getKeyByUserCredential cj) = some (some (setup cj)) := by
  unfold getBrowserContextsByUserCredentialsKey
  have hx : userCredentials.enum[j]? = some (j, cj) := by
    rw [List.getElem?_enum, hj]
    rfl
  have hlast' : ∀ l y, j < l → userCredentials.enum[l]? = some y →
      getKeyByUserCredential y.2 ≠ getKeyByUserCredential ((j, cj) : Nat × IUserCredentials).2 := by
    intro l y hl hy
    rw [List.getElem?_enum] at hy
    cases hcl : userCredentials[l]? with
    | none => rw [hcl] at hy; simp at hy
    | some cl =>
      rw [hcl] at hy
      have : y = (l, cl) := by simpa using hy.symm
      subst this
      exact hlast l cl hl hcl
  have h := objGet_foldl_last (fun p => getKeyByUserCredential p.2)
    (fun p => (userCredentials.map setup).get? p.1) userCredentials.enum j ((j, cj)) hx hlast'
  simpa [hj] using h

theorem claim_C6_witness :
    objGet (getBrowserContextsByUserCredentialsKey (fun c => c.password)
        [⟨"facebook", "u", "p1"⟩, ⟨"facebook", "u", "p2"⟩]) "facebook-u" =
      some (some "p2") :=
  claim_C6_later_credential_wins (fun c => c.password)
    [⟨"facebook", "u", "p1"⟩, ⟨"facebook", "u", "p2"⟩] 0 1
    ⟨"facebook", "u", "p1"⟩ ⟨"facebook", "u", "p2"⟩ (by decide) rfl rfl rfl
    (fun l cl hl hcl => by
      obtain ⟨n, rfl⟩ : ∃ n, l = n + 2 := ⟨l - 2, by omega⟩
      simp at hcl)

/-- C7: a credential whose type matches no known platform login routine
(neither facebook nor instagram) gets the bare unauthenticated session and
nothing is persisted, provided no non-empty persisted state was read. -/
theorem claim_C7_unknown_type_bare (facebookLogin instagramLogin : IUserCredentials → String)
    (userCredential : IUserCredentials) (readStorageState : Option String)
    (hread : readStorageState.getD "" = "")
    (hfb : userCredential.type ≠ "facebook") (hig : userCredential.type ≠ "instagram") :
    getBrowserContextWithLoggedInStoregeState facebookLogin instagramLogin userCredential
        readStorageState = { context := .bare, persisted := none } := by
  unfold getBrowserContextWithLoggedInStoregeState
  have h2 : (userCredential.type == "facebook") = false := by simp [hfb]
  have h3 : (userCredential.type == "instagram") = false := by simp [hig]
  simp [hread, h2, h3]

theorem claim_C7_witness :
    getBrowserContextWithLoggedInStoregeState (fun _ => "s") (fun _ => "t")
        ⟨"twitter", "u", "p"⟩ none = { context := .bare, persisted := none } :=
  claim_C7_unknown_type_bare (fun _ => "s") (fun _ => "t") ⟨"twitter", "u", "p"⟩ none
    rfl (by decide) (by decide)

/-! ## Claim about the pacing utility -/

/-- C8: for every bound max ≥ 1 and every random draw r in [0, 1), the pacing
utility's result floor(r * max) lies in [0, max); in particular for max = 1
the result is always 0. -/
theorem claim_C8_pacing_bounds (r : ℚ) (max : Nat) (h0 : 0 ≤ r) (h1 : r < 1) (hm : 1 ≤ max) :
    0 ≤ getRandomDelayTimeInSecound r max ∧
      getRandomDelayTimeInSecound r max < (max : Int) ∧
      (max = 1 → getRandomDelayTimeInSecound r max = 0) := by
  unfold getRandomDelayTimeInSecound
  have hmq : (0 : ℚ) < (max : ℚ) := by
    have : (0 : Nat) < max := hm
    exact_mod_cast this
  refine ⟨?_, ?_, ?_⟩
  · exact Int.floor_nonneg.mpr (mul_nonneg h0 (le_of_lt hmq))
  · rw [Int.floor_lt]
    have hlt : r * (max : ℚ) < 1 * (max : ℚ) := by
      exact mul_lt_mul_of_pos_right h1 hmq
    rw [one_mul] at hlt
    exact_mod_cast hlt
  · intro h
    subst h
    rw [Int.floor_eq_zero_iff]
    constructor
    · simpa using h0
    · simpa using h1

theorem claim_C8_witness :
    (0 ≤ getRandomDelayTimeInSecound 0 3 ∧
      getRandomDelayTimeInSecound 0 3 < (3 : Int) ∧
      (3 = 1 → getRandomDelayTimeInSecound 0 3 = 0)) :=
  claim_C8_pacing_bounds 0 3 (by decide) (by decide) (by decide)

/-! ## Claim about the key classifier -/

theorem strIncludes_go_iff (needle : List Char) :
    ∀ hay : List Char, strIncludes.go needle hay = true ↔ needle <:+: hay := by
  intro hay
  induction hay with
  | nil =>
    simp [strIncludes.go, List.isEmpty_iff]
  | cons c rest ih =>
    rw [strIncludes.go, Bool.or_eq_true, ih, List.infix_cons_iff]
    rw [ List.isPrefixOf_iff_prefix]

theorem strIncludes_iff (s pat : String) :
    strIncludes s pat = true ↔ pat.data <:+: s.data := by
  unfold strIncludes
  exact strIncludes_go_iff pat.data s.data

/-- Classification of `getTypeForBrowserContextByUserCredentialsKey` by
substring containment of the two platform markers. -/
theorem getType_classification (key : String) :
    (getTypeForBrowserContextByUserCredentialsKey key = some "facebook" ↔
      "facebook-".data <:+: key.data) ∧
    (getTypeForBrowserContextByUserCredentialsKey key = some "instagram" ↔
      (¬ "facebook-".data <:+: key.data ∧ "instagram-".data <:+: key.data)) ∧
    (getTypeForBrowserContextByUserCredentialsKey key = none ↔
      (¬ "facebook-".data <:+: key.data ∧ ¬ "instagram-".data <:+: key.data)) := by
  unfold getTypeForBrowserContextByUserCredentialsKey
  by_cases hfb : strIncludes key "facebook-" = true
  · have hfb' := (strIncludes_iff key "facebook-").mp hfb
    refine ⟨?_, ?_, ?_⟩ <;> simp [hfb, hfb']
  · have hfb' : ¬ "facebook-".data <:+: key.data :=
      fun h => hfb ((strIncludes_iff key "facebook-").mpr h)
    by_cases hig : strIncludes key "instagram-" = true
    · have hig' := (strIncludes_iff key "instagram-").mp hig
      refine ⟨?_, ?_, ?_⟩ <;> simp [hfb, hig, hfb', hig']
    · have hig' : ¬ "instagram-".data <:+: key.data :=
        fun h => hig ((strIncludes_iff key "instagram-").mpr h)
      refine ⟨?_, ?_, ?_⟩ <;> simp [hfb, hig, hfb', hig']

/-- C10 (implicit): the type-from-key classifier decides by substring
containment, not prefix: a key containing "facebook-" anywhere is classified
as facebook (even a key built from an instagram credential whose username
contains "facebook-"), otherwise a key containing "instagram-" anywhere as
instagram, otherwise no type. -/
theorem claim_C10_classifier_substring :
    (∀ key : String,
      (getTypeForBrowserContextByUserCredentialsKey key = some "facebook" ↔
        "facebook-".data <:+: key.data) ∧
      (getTypeForBrowserContextByUserCredentialsKey key = some "instagram" ↔
        (¬ "facebook-".data <:+: key.data ∧ "instagram-".data <:+: key.data)) ∧
      (getTypeForBrowserContextByUserCredentialsKey key = none ↔
        (¬ "facebook-".data <:+: key.data ∧ ¬ "instagram-".data <:+: key.data))) ∧
    (∀ c : IUserCredentials, c.type = "instagram" →
      "facebook-".data <:+: c.username.data →
      getTypeForBrowserContextByUserCredentialsKey (getKeyByUserCredential c) =
        some "facebook") := by
  refine ⟨getType_classification, ?_⟩
  intro c htype husr
  have hkey : "facebook-".data <:+: (getKeyByUserCredential c).data := by
    rcases husr with ⟨s, t, hst⟩
    refine ⟨(c.type ++ "-").data ++ s, t, ?_⟩
    have hdata : (getKeyByUserCredential c).data = (c.type ++ "-").data ++ c.username.data := by
      simp [getKeyByUserCredential]
    rw [hdata, ← hst]
    simp
  exact ((getType_classification (getKeyByUserCredential c)).1).mpr hkey

theorem claim_C10_witness :
    getTypeForBrowserContextByUserCredentialsKey
        (getKeyByUserCredential ⟨"instagram", "facebook-fan", "p"⟩) = some "facebook" :=
  claim_C10_classifier_substring.2 ⟨"instagram", "facebook-fan", "p"⟩ rfl (by decide)

/-! ## Lookup characterization of the grouping -/

theorem objGet_append (m₁ m₂ : List (String × β)) (k : String) :
    objGet (m₁ ++ m₂) k = (objGet m₁ k).or (objGet m₂ k) := by
  simp only [objGet, List.find?_append]
  cases m₁.find? (fun p => p.1 == k) <;> simp

theorem objGet_map_groupUpd (m : List (String × List IUserCredentials)) (t k : String)
    (c : IUserCredentials) :
    objGet (m.map (fun p => if p.1 == t then (p.1, p.2 ++ [c]) else p)) k =
      if k = t then (objGet m t).map (fun g => g ++ [c]) else objGet m k := by
  induction m with
  | nil => simp [objGet]
  | cons q m ih =>
    simp only [List.map_cons]
    by_cases hq : q.1 = t
    · have h1 : (q.1 == t) = true := by simp [hq]
      by_cases hk : q.1 = k
      · have hkt : k = t := by rw [← hk, hq]
        have h2 : (q.1 == k) = true := by simp [hk]
        simp [objGet, List.find?_cons, h1, h2, hkt]
      · have hkt : ¬ k = t := by
          intro h
          exact hk (by rw [hq, ← h])
        have h2 : (q.1 == k) = false := by simp [hk]
        simpa [objGet, List.find?_cons, h1, h2, hkt] using ih
    · have h1 : (q.1 == t) = false := by simp [hq]
      by_cases hk : q.1 = k
      · have hkt : ¬ k = t := by
          intro h
          exact hq (by rw [hk, h])
        have h2 : (q.1 == k) = true := by simp [hk]
        simp [objGet, List.find?_cons, h1, h2, hkt]
      · have h2 : (q.1 == k) = false := by simp [hk]
        simpa [objGet, List.find?_cons, h1, h2] using ih

theorem objGet_any_isSome (m : List (String × β)) (k : String)
    (h : m.any (fun p => p.1 == k) = true) : (objGet m k).isSome := by
  rcases List.any_eq_true.mp h with ⟨p, hp, hpk⟩
  unfold objGet
  have : (m.find? (fun p => p.1 == k)).isSome := List.find?_isSome.mpr ⟨p, hp, hpk⟩
  rcases Option.isSome_iff_exists.mp this with ⟨q, hq⟩
  simp [hq]

theorem objGet_any_none (m : List (String × β)) (k : String)
    (h : m.any (fun p => p.1 == k) = false) : objGet m k = none := by
  unfold objGet
  have : m.find? (fun p => p.1 == k) = none := by
    rw [List.find?_eq_none]
    intro p hp hpk
    rw [List.any_eq_false] at h
    exact h p hp hpk
  simp [this]

theorem objGet_gStep (acc : List (String × List IUserCredentials)) (c : IUserCredentials)
    (t : String) :
    objGet (gStep acc c) t =
      if t = c.type then some ((objGet acc c.type).getD [] ++ [c]) else objGet acc t := by
  unfold gStep
  by_cases hany : acc.any (fun p => p.1 == c.type) = true
  · rw [if_pos hany, objGet_map_groupUpd]
    by_cases ht : t = c.type
    · rw [if_pos ht, if_pos ht]
      rcases Option.isSome_iff_exists.mp (objGet_any_isSome acc c.type hany) with ⟨g, hg⟩
      rw [hg]
      rfl
    · rw [if_neg ht, if_neg ht]
  · rw [if_neg hany, objGet_append]
    have hfalse : acc.any (fun p => p.1 == c.type) = false := by
      rw [← Bool.not_eq_true]
      exact hany
    have hnone : objGet acc c.type = none := objGet_any_none acc c.type hfalse
    by_cases ht : t = c.type
    · subst ht
      rw [hnone, if_pos rfl]
      have hsing : objGet [(c.type, [c])] c.type = some [c] := by
        simp [objGet, List.find?_cons]
      rw [hsing]
      rfl
    · rw [if_neg ht]
      have hsing : objGet [(c.type, [c])] t = none := by
        have hne : (c.type == t) = false := by simp [Ne.symm ht]
        simp [objGet, List.find?_cons, hne]
      rw [hsing]
      cases objGet acc t <;> rfl

theorem objGet_foldl_gStep (l : List IUserCredentials) (acc : List (String × List IUserCredentials))
    (t : String) :
    objGet (l.foldl gStep acc) t =
      if l.any (fun c => c.type == t) then
        some ((objGet acc t).getD [] ++ l.filter (fun c => c.type == t))
      else objGet acc t := by
  induction l generalizing acc with
  | nil => simp
  | cons c l ih =>
    rw [List.foldl_cons, ih]
    by_cases ht : c.type = t
    · have h1 : (c.type == t) = true := by simp [ht]
      have hg : objGet (gStep acc c) t = some ((objGet acc t).getD [] ++ [c]) := by
        rw [objGet_gStep, if_pos ht.symm, ht]
      have hfc : (c :: l).filter (fun x => x.type == t) =
          c :: l.filter (fun x => x.type == t) := by
        simp [List.filter_cons, h1]
      have hac : ((c :: l).any (fun x => x.type == t)) = true := by simp [h1]
      rw [hfc, if_pos hac, hg]
      by_cases hl : l.any (fun x => x.type == t) = true
      · rw [if_pos hl]
        simp [List.append_assoc]
      · rw [if_neg hl]
        have hfe : l.filter (fun x => x.type == t) = [] := by
          rw [List.filter_eq_nil_iff]
          have hl2 : l.any (fun x => x.type == t) = false := by
            rw [← Bool.not_eq_true]
            exact hl
          rw [List.any_eq_false] at hl2
          exact hl2
        rw [hfe]
    · have h1 : (c.type == t) = false := by simp [ht]
      have hg : objGet (gStep acc c) t = objGet acc t := by
        rw [objGet_gStep, if_neg (fun h => ht h.symm)]
      have hfc : (c :: l).filter (fun x => x.type == t) = l.filter (fun x => x.type == t) := by
        simp [List.filter_cons, h1]
      have hac : ((c :: l).any (fun x => x.type == t)) = (l.any (fun x => x.type == t)) := by
        simp [h1]
      rw [hg, hfc, hac]

theorem objGet_groupByType (l : List IUserCredentials) (t : String) :
    objGet (groupByType l) t =
      if l.any (fun c => c.type == t) then some (l.filter (fun c => c.type == t))
      else none := by
  unfold groupByType
  rw [objGet_foldl_gStep]
  rfl

/-! ## Structure of the grouping: distinct group keys, membership, contents -/

theorem nodupKeys_gStep (acc : List (String × List IUserCredentials)) (c : IUserCredentials)
    (h : (acc.map Prod.fst).Nodup) : ((gStep acc c).map Prod.fst).Nodup := by
  unfold gStep
  by_cases hany : acc.any (fun p => p.1 == c.type) = true
  · rw [if_pos hany, List.map_map]
    have heq : (Prod.fst ∘ fun p : String × List IUserCredentials =>
        if p.1 == c.type then (p.1, p.2 ++ [c]) else p) = Prod.fst := by
      funext p
      by_cases hp : (p.1 == c.type) = true <;> simp [Function.comp, hp]
    rw [heq]
    exact h
  · rw [if_neg hany, List.map_append]
    have hnotin : ¬ c.type ∈ acc.map Prod.fst := by
      intro hmem
      rcases List.mem_map.mp hmem with ⟨p, hp, hpe⟩
      exact hany (List.any_eq_true.mpr ⟨p, hp, by simp [hpe]⟩)
    simp [List.nodup_append, h, hnotin]

theorem nodupKeys_groupByType (l : List IUserCredentials) :
    ((groupByType l).map Prod.fst).Nodup := by
  unfold groupByType
  suffices h : ∀ acc, (acc.map Prod.fst).Nodup →
      ((l.foldl gStep acc).map Prod.fst).Nodup by
    exact h [] (by simp)
  induction l with
  | nil =>
    intro acc h
    simpa using h
  | cons c l ih =>
    intro acc hacc
    rw [List.foldl_cons]
    exact ih (gStep acc c) (nodupKeys_gStep acc c hacc)

theorem objGet_some_mem (m : List (String × β)) (k : String) (v : β)
    (h : objGet m k = some v) : (k, v) ∈ m := by
  unfold objGet at h
  cases hf : m.find? (fun p => p.1 == k) with
  | none =>
    rw [hf] at h
    simp at h
  | some p =>
    rw [hf] at h
    have hv : p.2 = v := by simpa using h
    have hk : p.1 = k := by simpa using List.find?_some hf
    have hm := List.mem_of_find?_eq_some hf
    rw [← hk, ← hv]
    exact hm

theorem objGet_eq_of_mem_nodupKeys (m : List (String × β))
    (hnd : (m.map Prod.fst).Nodup) (k : String) (v : β) (hm : (k, v) ∈ m) :
    objGet m k = some v := by
  induction m with
  | nil => simp at hm
  | cons q m ih =>
    rcases List.mem_cons.mp hm with hq | hq
    · rw [← hq]
      simp [objGet, List.find?_cons]
    · have hnd' : (m.map Prod.fst).Nodup := by
        rw [List.map_cons] at hnd
        exact hnd.of_cons
      have hqk : q.1 ≠ k := by
        intro h
        rw [List.map_cons, List.nodup_cons] at hnd
        have : k ∈ m.map Prod.fst := List.mem_map.mpr ⟨(k, v), hq, rfl⟩
        exact hnd.1 (h ▸ this)
      have h2 : (q.1 == k) = false := by simp [hqk]
      simpa [objGet, List.find?_cons, h2] using ih hnd' hq

theorem mem_groupByType (l : List IUserCredentials) (p : String × List IUserCredentials)
    (hp : p ∈ groupByType l) :
    p.2 = l.filter (fun c => c.type == p.1) ∧ l.any (fun c => c.type == p.1) = true := by
  have hg : objGet (groupByType l) p.1 = some p.2 :=
    objGet_eq_of_mem_nodupKeys _ (nodupKeys_groupByType l) p.1 p.2 hp
  rw [objGet_groupByType] at hg
  by_cases hany : l.any (fun c => c.type == p.1) = true
  · rw [if_pos hany] at hg
    exact ⟨(Option.some_inj.mp hg).symm, hany⟩
  · rw [if_neg hany] at hg
    simp at hg

/-! ## The groups partition the credential list (as a multiset) -/

theorem map_groupUpd_id (acc : List (String × List IUserCredentials)) (c : IUserCredentials)
    (hany : acc.any (fun p => p.1 == c.type) = false) :
    acc.map (fun p => if p.1 == c.type then (p.1, p.2 ++ [c]) else p) = acc := by
  rw [List.any_eq_false] at hany
  have : ∀ p ∈ acc, (if p.1 == c.type then (p.1, p.2 ++ [c]) else p) = p := by
    intro p hp
    have : (p.1 == c.type) = false := by
      rw [← Bool.not_eq_true]
      exact hany p hp
    simp [this]
  rw [List.map_congr_left this]
  simp

theorem flatten_map_groupUpd_perm :
    ∀ (acc : List (String × List IUserCredentials)) (c : IUserCredentials),
      (acc.map Prod.fst).Nodup → acc.any (fun p => p.1 == c.type) = true →
      (((acc.map (fun p => if p.1 == c.type then (p.1, p.2 ++ [c]) else p)).map
        Prod.snd).flatten).Perm ((acc.map Prod.snd).flatten ++ [c]) := by
  intro acc c
  induction acc with
  | nil =>
    intro _ hany
    simp at hany
  | cons q acc ih =>
    intro hnd hany
    by_cases hq : (q.1 == c.type) = true
    · have hrest : acc.any (fun p => p.1 == c.type) = false := by
        rw [List.map_cons, List.nodup_cons] at hnd
        rw [← Bool.not_eq_true]
        intro habs
        rcases List.any_eq_true.mp habs with ⟨p, hp, hpk⟩
        have h1 : q.1 = c.type := by simpa using hq
        have h2 : p.1 = c.type := by simpa using hpk
        exact hnd.1 (List.mem_map.mpr ⟨p, hp, by rw [h2, ← h1]⟩)
      rw [List.map_cons]
      rw [if_pos hq, map_groupUpd_id acc c hrest]
      simp only [List.map_cons, List.flatten_cons]
      rw [List.append_assoc, List.append_assoc]
      exact List.Perm.append_left q.2 List.perm_append_comm
    · have hrest : acc.any (fun p => p.1 == c.type) = true := by
        rcases List.any_eq_true.mp hany with ⟨p, hp, hpk⟩
        rcases List.mem_cons.mp hp with hpq | hpm
        · rw [hpq] at hpk
          exact absurd hpk hq
        · exact List.any_eq_true.mpr ⟨p, hpm, hpk⟩
      have hnd' : (acc.map Prod.fst).Nodup := by
        rw [List.map_cons, List.nodup_cons] at hnd
        exact hnd.2
      rw [List.map_cons, if_neg hq]
      simp only [List.map_cons, List.flatten_cons]
      rw [List.append_assoc]
      exact List.Perm.append_left q.2 (ih hnd' hrest)

theorem flatten_gStep_perm (acc : List (String × List IUserCredentials)) (c : IUserCredentials)
    (hnd : (acc.map Prod.fst).Nodup) :
    (((gStep acc c).map Prod.snd).flatten).Perm ((acc.map Prod.snd).flatten ++ [c]) := by
  unfold gStep
  by_cases hany : acc.any (fun p => p.1 == c.type) = true
  · rw [if_pos hany]
    exact flatten_map_groupUpd_perm acc c hnd hany
  · rw [if_neg hany]
    simp

theorem flatten_groupByType_perm (l : List IUserCredentials) :
    (((groupByType l).map Prod.snd).flatten).Perm l := by
  unfold groupByType
  suffices h : ∀ acc, (acc.map Prod.fst).Nodup →
      (((l.foldl gStep acc).map Prod.snd).flatten).Perm ((acc.map Prod.snd).flatten ++ l) by
    simpa using h [] (by simp)
  induction l with
  | nil =>
    intro acc _
    simp
  | cons c l ih =>
    intro acc hacc
    rw [List.foldl_cons]
    have h1 := ih (gStep acc c) (nodupKeys_gStep acc c hacc)
    have h2 := List.Perm.append_right l (flatten_gStep_perm acc c hacc)
    refine h1.trans (h2.trans ?_)
    rw [List.append_assoc]
    exact List.Perm.refl _

/-! ## The partitioner as one flat sequence of object writes -/

/-- The object writes the partitioner performs for one platform group: the
i-th credential's identity key mapped to the i-th chunk (`undefined` past the
end of the chunk list). -/
def groupWrites (keys : List String) (grp : String × List IUserCredentials) :
    List (String × Option (List String)) :=
  grp.2.enum.map
    (fun p => (getKeyByUserCredential p.2, (searchStringsByChanks grp.2.length keys).get? p.1))

theorem partitioner_eq_flat {β : Type _} (creds : List IUserCredentials)
    (strs : List (String × β)) :
    getSearchStringsByBrowserContexts creds strs =
      (((groupByType creds).map (groupWrites (strs.map Prod.fst))).flatten).foldl
        (fun m p => objUpsert m p.1 p.2) [] := by
  unfold getSearchStringsByBrowserContexts
  rw [List.foldl_flatten, List.foldl_map]
  dsimp only
  congr 1
  funext memo grp
  unfold groupWrites
  rw [List.foldl_map]

theorem map_fst_groupWrites (keys : List String) (grp : String × List IUserCredentials) :
    (groupWrites keys grp).map Prod.fst = grp.2.map getKeyByUserCredential := by
  unfold groupWrites
  rw [List.map_map]
  have h : (Prod.fst ∘ fun p : Nat × IUserCredentials =>
      (getKeyByUserCredential p.2, (searchStringsByChanks grp.2.length keys).get? p.1)) =
      (getKeyByUserCredential ∘ Prod.snd) := rfl
  rw [h, ← List.map_map, List.enum_eq_enumFrom, List.enumFrom_map_snd]

theorem nodup_writeKeys (creds : List IUserCredentials) (keys : List String)
    (hnd : (creds.map getKeyByUserCredential).Nodup) :
    ((((groupByType creds).map (groupWrites keys)).flatten).map Prod.fst).Nodup := by
  rw [List.map_flatten, List.map_map]
  have h : (List.map Prod.fst ∘ groupWrites keys) =
      (fun grp : String × List IUserCredentials => grp.2.map getKeyByUserCredential) := by
    funext grp
    exact map_fst_groupWrites keys grp
  rw [h]
  have h2 : (groupByType creds).map
      (fun grp : String × List IUserCredentials => grp.2.map getKeyByUserCredential) =
      ((groupByType creds).map Prod.snd).map (List.map getKeyByUserCredential) := by
    rw [List.map_map]
    rfl
  rw [h2, ← List.map_flatten]
  exact ((flatten_groupByType_perm creds).map getKeyByUserCredential).symm.nodup hnd

theorem mem_enum_iff {l : List α} {i : Nat} {a : α} :
    (i, a) ∈ l.enum ↔ l[i]? = some a := by
  constructor
  · intro h
    rcases List.mem_iff_getElem?.mp h with ⟨n, hn⟩
    rw [List.getElem?_enum] at hn
    cases hl : l[n]? with
    | none =>
      rw [hl] at hn
      simp at hn
    | some b =>
      rw [hl] at hn
      have hb : (n, b) = (i, a) := by simpa using hn
      obtain ⟨h1, h2⟩ := Prod.mk.injEq .. ▸ hb
      subst h1
      subst h2
      exact hl
  · intro h
    apply List.mem_iff_getElem?.mpr
    refine ⟨i, ?_⟩
    rw [List.getElem?_enum, h]
    rfl

/-- Master lookup lemma for the partitioner: under globally distinct identity
keys, the credential standing at position `i` of its platform group is mapped
to the i-th entry of that group's chunk list (which is `none`, i.e.
`undefined`, when the chunk list is shorter). -/
theorem partitioner_lookup {β : Type _} (creds : List IUserCredentials)
    (strs : List (String × β)) (t : String) (i : Nat) (c : IUserCredentials)
    (hnd : (creds.map getKeyByUserCredential).Nodup)
    (hc : (creds.filter (fun x => x.type == t))[i]? = some c) :
    objGet (getSearchStringsByBrowserContexts creds strs) (getKeyByUserCredential c) =
      some ((searchStringsByChanks (creds.filter (fun x => x.type == t)).length
        (strs.map Prod.fst)).get? i) := by
  have hmemgrp : c ∈ creds.filter (fun x => x.type == t) :=
    List.mem_iff_getElem?.mpr ⟨i, hc⟩
  have hct : c.type = t := by
    have := (List.mem_filter.mp hmemgrp).2
    simpa using this
  have hcin : c ∈ creds := (List.mem_filter.mp hmemgrp).1
  have hany : creds.any (fun x => x.type == t) = true :=
    List.any_eq_true.mpr ⟨c, hcin, by simp [hct]⟩
  have hobj : objGet (groupByType creds) t = some (creds.filter (fun x => x.type == t)) := by
    rw [objGet_groupByType, if_pos hany]
  have hgrpmem : (t, creds.filter (fun x => x.type == t)) ∈ groupByType creds :=
    objGet_some_mem _ _ _ hobj
  have hwmem : (getKeyByUserCredential c,
      (searchStringsByChanks (creds.filter (fun x => x.type == t)).length
        (strs.map Prod.fst)).get? i) ∈
      groupWrites (strs.map Prod.fst) (t, creds.filter (fun x => x.type == t)) := by
    unfold groupWrites
    apply List.mem_map.mpr
    exact ⟨(i, c), mem_enum_iff.mpr hc, rfl⟩
  have hwrites_mem : (getKeyByUserCredential c,
      (searchStringsByChanks (creds.filter (fun x => x.type == t)).length
        (strs.map Prod.fst)).get? i) ∈
      ((groupByType creds).map (groupWrites (strs.map Prod.fst))).flatten := by
    apply List.mem_flatten.mpr
    exact ⟨groupWrites (strs.map Prod.fst) (t, creds.filter (fun x => x.type == t)),
      List.mem_map.mpr ⟨(t, creds.filter (fun x => x.type == t)), hgrpmem, rfl⟩, hwmem⟩
  rw [partitioner_eq_flat]
  apply objGet_foldl_uniq Prod.fst Prod.snd _ _ _ ⟨_, hwrites_mem, rfl⟩
  intro w hw hwk
  rcases List.mem_flatten.mp hw with ⟨block, hblock, hwin⟩
  rcases List.mem_map.mp hblock with ⟨grp, hgrp, hbe⟩
  obtain ⟨hgrp2, _⟩ := mem_groupByType creds grp hgrp
  rw [← hbe] at hwin
  unfold groupWrites at hwin
  rcases List.mem_map.mp hwin with ⟨q, henum, hw_eq⟩
  have hcq : grp.2[q.1]? = some q.2 := mem_enum_iff.mp (by
    have : q = (q.1, q.2) := rfl
    rw [← this]
    exact henum)
  have hkeq : getKeyByUserCredential q.2 = getKeyByUserCredential c := by
    rw [← hw_eq] at hwk
    exact hwk
  have hqmem_f : q.2 ∈ grp.2 := List.mem_iff_getElem?.mpr ⟨q.1, hcq⟩
  have hqcreds : q.2 ∈ creds := by
    rw [hgrp2] at hqmem_f
    exact (List.mem_filter.mp hqmem_f).1
  have hcc : q.2 = c := List.inj_on_of_nodup_map hnd hqcreds hcin hkeq
  have hgt : grp.1 = t := by
    rw [hgrp2] at hqmem_f
    have h1 := (List.mem_filter.mp hqmem_f).2
    have h2 : q.2.type = grp.1 := by simpa using h1
    rw [← h2, hcc, hct]
  have hgrp2' : grp.2 = creds.filter (fun x => x.type == t) := by
    rw [hgrp2, hgt]
  have hnodup_creds : creds.Nodup := List.Nodup.of_map _ hnd
  have hnodup_group : (creds.filter (fun x => x.type == t)).Nodup :=
    (List.filter_sublist creds).nodup hnodup_creds
  have hcq' : (creds.filter (fun x => x.type == t))[q.1]? = some c := by
    rw [← hgrp2', hcq, hcc]
  have hlen : q.1 < (creds.filter (fun x => x.type == t)).length :=
    (List.getElem?_eq_some_iff.mp hcq').1
  have hii : q.1 = i := by
    apply List.getElem?_inj hlen hnodup_group
    rw [hcq', hc]
  rw [← hw_eq]
  rw [hgrp2', hii]

/-! ## Arithmetic of chunking -/

theorem jsCeilDiv_zero (n : Nat) (hn : 1 ≤ n) : jsCeilDiv 0 n = 0 := by
  unfold jsCeilDiv
  apply Nat.div_eq_of_lt
  omega

theorem one_le_jsCeilDiv (N P : Nat) (hP : 1 ≤ P) (hN : 1 ≤ N) : 1 ≤ jsCeilDiv N P := by
  unfold jsCeilDiv
  rw [Nat.one_le_div_iff (by omega)]
  omega

theorem jsCeilDiv_succ (len n : Nat) (hl : 1 ≤ len) (hn : 1 ≤ n) :
    jsCeilDiv len n = jsCeilDiv (len - n) n + 1 := by
  unfold jsCeilDiv
  rcases Nat.le_total len n with h | h
  · have h1 : len - n = 0 := by omega
    rw [h1]
    have h2 : (0 + n - 1) / n = 0 := Nat.div_eq_of_lt (by omega)
    rw [h2]
    have h3 : len + n - 1 = (len - 1) + n := by omega
    rw [h3, Nat.add_div_right _ (by omega : 0 < n)]
    have h4 : (len - 1) / n = 0 := Nat.div_eq_of_lt (by omega)
    omega
  · have h2 : len + n - 1 = ((len - n) + n - 1) + n := by omega
    rw [h2, Nat.add_div_right _ (by omega : 0 < n)]

theorem le_mul_jsCeilDiv (N P : Nat) (hP : 1 ≤ P) : N ≤ P * jsCeilDiv N P := by
  unfold jsCeilDiv
  have hdm := Nat.div_add_mod (N + P - 1) P
  have hmod : (N + P - 1) % P < P := Nat.mod_lt _ (by omega)
  generalize hq : (N + P - 1) / P = q at hdm ⊢
  generalize hr : (N + P - 1) % P = r at hdm hmod
  generalize hB : P * q = B at hdm ⊢
  omega

theorem numChunks_le (N P : Nat) (hP : 1 ≤ P) (hPN : P < N) :
    jsCeilDiv N (jsCeilDiv N P) ≤ P := by
  have hN : 1 ≤ N := by omega
  have hc1 : 1 ≤ jsCeilDiv N P := one_le_jsCeilDiv N P hP hN
  have hNPc : N ≤ P * jsCeilDiv N P := le_mul_jsCeilDiv N P hP
  generalize hc : jsCeilDiv N P = c at hc1 hNPc ⊢
  unfold jsCeilDiv
  rw [Nat.div_le_iff_le_mul_add_pred (by omega : 0 < c)]
  rw [Nat.mul_comm c P]
  generalize hD : P * c = D at hNPc ⊢
  omega

theorem jsCeilDiv_mul_bound (N n i : Nat) (hn : 1 ≤ n) (hi : i < jsCeilDiv N n) :
    n * i < N := by
  unfold jsCeilDiv at hi
  have h1 : i + 1 ≤ (N + n - 1) / n := hi
  rw [Nat.le_div_iff_mul_le (by omega : 0 < n)] at h1
  have h2 : (i + 1) * n = n * i + n := by ring
  rw [h2] at h1
  generalize hA : n * i = A at h1 ⊢
  omega

theorem chunkList_nil (n : Nat) (hn : 1 ≤ n) : chunkList n ([] : List α) = [] := by
  unfold chunkList
  rw [show ([] : List α).length = 0 from rfl, jsCeilDiv_zero n hn]
  rfl

theorem chunkList_cons_form (n : Nat) (hn : 1 ≤ n) (l : List α) (hl : l ≠ []) :
    chunkList n l = l.take n :: chunkList n (l.drop n) := by
  have hlen : 1 ≤ l.length := List.length_pos.mpr hl
  unfold chunkList
  rw [List.length_drop, jsCeilDiv_succ l.length n hlen hn, List.range_succ_eq_map,
    List.map_cons, List.map_map]
  have htail : (List.range (jsCeilDiv (l.length - n) n)).map
      ((fun i => (l.drop (n * i)).take n) ∘ Nat.succ) =
      (List.range (jsCeilDiv (l.length - n) n)).map
      (fun i => ((l.drop n).drop (n * i)).take n) := by
    apply List.map_congr_left
    intro i hi
    simp only [Function.comp_apply, Nat.succ_eq_add_one]
    rw [List.drop_drop]
    have h : n * (i + 1) = n + n * i := by ring
    rw [h]
  rw [htail]
  simp

theorem chunkList_flatten (n : Nat) (hn : 1 ≤ n) : ∀ l : List α, (chunkList n l).flatten = l
  | [] => by
    rw [chunkList_nil n hn]
    rfl
  | x :: xs => by
    rw [chunkList_cons_form n hn (x :: xs) (by simp)]
    rw [List.flatten_cons]
    rw [chunkList_flatten n hn ((x :: xs).drop n)]
    exact List.take_append_drop n (x :: xs)
termination_by l => l.length
decreasing_by
  simp only [List.length_drop, List.length_cons]
  omega

theorem chunkList_length (n : Nat) (l : List α) :
    (chunkList n l).length = jsCeilDiv l.length n := by
  simp [chunkList]

theorem chunkList_getElem? (n : Nat) (l : List α) (i : Nat) (hi : i < jsCeilDiv l.length n) :
    (chunkList n l)[i]? = some ((l.drop (n * i)).take n) := by
  unfold chunkList
  rw [List.getElem?_map, List.getElem?_range hi]
  rfl

theorem chunk_size_all (n : Nat) (l : List α) (i : Nat) (hn : 1 ≤ n)
    (hi : i < jsCeilDiv l.length n) :
    0 < ((l.drop (n * i)).take n).length ∧ ((l.drop (n * i)).take n).length ≤ n := by
  have h1 : n * i < l.length := jsCeilDiv_mul_bound l.length n i hn hi
  have hlen : ((l.drop (n * i)).take n).length = min n (l.length - n * i) := by
    simp [List.length_take, List.length_drop]
  rw [hlen, Nat.min_def]
  generalize hA : n * i = A at h1 ⊢
  constructor
  · split <;> omega
  · split <;> omega

theorem chunk_size_mid (n : Nat) (l : List α) (i : Nat) (hn : 1 ≤ n)
    (hi : i + 1 < jsCeilDiv l.length n) :
    ((l.drop (n * i)).take n).length = n := by
  have h2 : n * (i + 1) < l.length := jsCeilDiv_mul_bound l.length n (i + 1) hn hi
  have hlen : ((l.drop (n * i)).take n).length = min n (l.length - n * i) := by
    simp [List.length_take, List.length_drop]
  have h3 : n * (i + 1) = n * i + n := by ring
  rw [h3] at h2
  rw [hlen, Nat.min_def]
  generalize hA : n * i = A at h2 ⊢
  split <;> omega

/-! ## Claims about the work partitioner -/

/-- C1 counterexample: two facebook credentials and a single key (P = 2 ≥
N = 1).  The claim says every credential of the group is assigned the entire
key list, but the partitioner assigns the second credential `undefined`
(the chunk array is the one-element `[searchStringsKeys]` and index 1 is out
of range). -/
theorem claim_C1_counterexample :
    objGet (getSearchStringsByBrowserContexts
        [⟨"facebook", "u1", "p"⟩, ⟨"facebook", "u2", "p"⟩] [("a", 0)]) "facebook-u2" =
      some none ∧
    objGet (getSearchStringsByBrowserContexts
        [⟨"facebook", "u1", "p"⟩, ⟨"facebook", "u2", "p"⟩] [("a", 0)]) "facebook-u2" ≠
      some (some ["a"]) := by
  decide

/-- C1 amended: for a platform group with P ≥ N (and globally distinct
identity keys), the chunk array is the single-element list holding the whole
key list, so the credential at index 0 of the group is assigned the entire
unabridged ordered key list while every credential at a later index is
assigned `undefined` — not the full list. -/
theorem claim_C1_amended {β : Type _} (creds : List IUserCredentials)
    (strs : List (String × β)) (t : String)
    (hnd : (creds.map getKeyByUserCredential).Nodup)
    (hPN : (strs.map Prod.fst).length ≤ (creds.filter (fun x => x.type == t)).length) :
    ∀ i c, (creds.filter (fun x => x.type == t))[i]? = some c →
      objGet (getSearchStringsByBrowserContexts creds strs) (getKeyByUserCredential c) =
        if i = 0 then some (some (strs.map Prod.fst)) else some none := by
  intro i c hc
  rw [partitioner_lookup creds strs t i c hnd hc]
  unfold searchStringsByChanks
  rw [if_pos hPN]
  cases i with
  | zero => rfl
  | succ m => simp

theorem claim_C1_amended_witness :
    objGet (getSearchStringsByBrowserContexts
        [⟨"facebook", "u1", "p"⟩, ⟨"facebook", "u2", "p"⟩] [("a", 0)])
      (getKeyByUserCredential ⟨"facebook", "u2", "p"⟩) =
      if 1 = 0 then some (some ["a"]) else some none :=
  claim_C1_amended [⟨"facebook", "u1", "p"⟩, ⟨"facebook", "u2", "p"⟩] [("a", 0)]
    "facebook" (by decide) (by decide) 1 ⟨"facebook", "u2", "p"⟩ (by decide)

/-- C2: for a platform group of size P with P < N keys (and globally distinct
identity keys), the partitioner splits the ordered key list into contiguous
chunks of size ceil(N/P): the chunks concatenate back to the full ordered key
list exactly once each, there are no more chunks than credentials, the i-th
credential of the group (in the group's original relative order) is assigned
the i-th chunk, and every chunk except possibly the last has exactly
ceil(N/P) keys, the last having between 1 and ceil(N/P). -/
theorem claim_C2_partition {β : Type _} (creds : List IUserCredentials)
    (strs : List (String × β)) (t : String)
    (hnd : (creds.map getKeyByUserCredential).Nodup)
    (hne : creds.filter (fun x => x.type == t) ≠ [])
    (hPN : (creds.filter (fun x => x.type == t)).length < (strs.map Prod.fst).length) :
    ((chunkList (jsCeilDiv (strs.map Prod.fst).length
        (creds.filter (fun x => x.type == t)).length) (strs.map Prod.fst)).flatten =
      strs.map Prod.fst) ∧
    ((chunkList (jsCeilDiv (strs.map Prod.fst).length
        (creds.filter (fun x => x.type == t)).length) (strs.map Prod.fst)).length ≤
      (creds.filter (fun x => x.type == t)).length) ∧
    (∀ i c, (creds.filter (fun x => x.type == t))[i]? = some c →
      objGet (getSearchStringsByBrowserContexts creds strs) (getKeyByUserCredential c) =
        some ((chunkList (jsCeilDiv (strs.map Prod.fst).length
          (creds.filter (fun x => x.type == t)).length) (strs.map Prod.fst)).get? i)) ∧
    (∀ i ch, (chunkList (jsCeilDiv (strs.map Prod.fst).length
        (creds.filter (fun x => x.type == t)).length) (strs.map Prod.fst))[i]? = some ch →
      0 < ch.length ∧
      ch.length ≤ jsCeilDiv (strs.map Prod.fst).length
        (creds.filter (fun x => x.type == t)).length ∧
      (i + 1 < (chunkList (jsCeilDiv (strs.map Prod.fst).length
          (creds.filter (fun x => x.type == t)).length) (strs.map Prod.fst)).length →
        ch.length = jsCeilDiv (strs.map Prod.fst).length
          (creds.filter (fun x => x.type == t)).length)) := by
  have hP : 1 ≤ (creds.filter (fun x => x.type == t)).length := List.length_pos.mpr hne
  have hN : 1 ≤ (strs.map Prod.fst).length := by omega
  have hcs : 1 ≤ jsCeilDiv (strs.map Prod.fst).length
      (creds.filter (fun x => x.type == t)).length :=
    one_le_jsCeilDiv _ _ hP hN
  refine ⟨chunkList_flatten _ hcs _, ?_, ?_, ?_⟩
  · rw [chunkList_length]
    exact numChunks_le _ _ hP hPN
  · intro i c hc
    rw [partitioner_lookup creds strs t i c hnd hc]
    unfold searchStringsByChanks
    rw [if_neg (by omega)]
  · intro i ch hch
    have hibound : i < jsCeilDiv (strs.map Prod.fst).length
        (jsCeilDiv (strs.map Prod.fst).length
          (creds.filter (fun x => x.type == t)).length) := by
      have := (List.getElem?_eq_some_iff.mp hch).1
      rwa [chunkList_length] at this
    have hch' := chunkList_getElem? _ (strs.map Prod.fst) i hibound
    rw [hch] at hch'
    have hcheq : ch = ((strs.map Prod.fst).drop
        (jsCeilDiv (strs.map Prod.fst).length
          (creds.filter (fun x => x.type == t)).length * i)).take
        (jsCeilDiv (strs.map Prod.fst).length
          (creds.filter (fun x => x.type == t)).length) := by
      exact Option.some_inj.mp hch'
    obtain ⟨hpos, hle⟩ := chunk_size_all _ (strs.map Prod.fst) i hcs hibound
    refine ⟨?_, ?_, ?_⟩
    · rw [hcheq]
      exact hpos
    · rw [hcheq]
      exact hle
    · intro hmid
      rw [chunkList_length] at hmid
      rw [hcheq]
      exact chunk_size_mid _ (strs.map Prod.fst) i hcs hmid

theorem claim_C2_witness :
    objGet (getSearchStringsByBrowserContexts
        [⟨"facebook", "u1", "p"⟩, ⟨"facebook", "u2", "p"⟩]
        [("a", 0), ("b", 0), ("c", 0), ("d", 0), ("e", 0)])
      (getKeyByUserCredential ⟨"facebook", "u2", "p"⟩) = some (some ["d", "e"]) := by
  have h := (claim_C2_partition
    [⟨"facebook", "u1", "p"⟩, ⟨"facebook", "u2", "p"⟩]
    [("a", 0), ("b", 0), ("c", 0), ("d", 0), ("e", 0)]
    "facebook" (by decide) (by decide) (by decide)).2.2.1 1 ⟨"facebook", "u2", "p"⟩ (by decide)
  rw [h]
  decide
